import Mathlib

/-!
# Verification of the Spine atlas packing engine

Shallow embedding of `src/utils/atlasPacker.ts` (class `MaxRectsPacker` and
function `packAtlases`) and of the worker shim `src/utils/packer.worker.ts`.

JavaScript numbers are modelled as `Int` (all quantities handled by the packer
are integers); the single floating-point value, `efficiency`, is modelled as
`Rat` (the code computes `(usedArea / totalArea) * 100` on integer inputs).
Division by zero follows Lean's `0`-convention; no theorem below relies on the
value of `efficiency` when `totalArea = 0` (where JS would produce `NaN`),
except where a positive page size is assumed.
-/

namespace SpineAtlas

/-- The slice of `OptimizationTask` (from `src/types`) consumed by the packer:
`targetWidth`/`targetHeight`.  All other payload of a task is opaque to the
engine and is represented by the opaque identifier `id`. -/
structure OptimizationTask where
  id : Nat
  targetWidth : Int
  targetHeight : Int
deriving DecidableEq, Repr

/-- `interface Rect` of `atlasPacker.ts`. -/
structure Rect where
  x : Int
  y : Int
  width : Int
  height : Int
deriving DecidableEq, Repr

/-- `PackedRect` (from `src/types`): a recorded placement, carrying the task. -/
structure PackedRect where
  x : Int
  y : Int
  w : Int
  h : Int
  task : OptimizationTask
deriving DecidableEq, Repr

/-- `AtlasPage` (from `src/types`): one page of the result. -/
structure AtlasPage where
  id : Nat
  width : Int
  height : Int
  items : List PackedRect
  efficiency : Rat
deriving DecidableEq, Repr

/-- The non-intersection test at the top of `MaxRectsPacker.splitFreeNode`:
`usedNode.x >= freeNode.x + freeNode.width || usedNode.x + usedNode.width <= freeNode.x ||
 usedNode.y >= freeNode.y + freeNode.height || usedNode.y + usedNode.height <= freeNode.y`. -/
def separated (freeNode usedNode : Rect) : Prop :=
  freeNode.x + freeNode.width ≤ usedNode.x ∨
  usedNode.x + usedNode.width ≤ freeNode.x ∨
  freeNode.y + freeNode.height ≤ usedNode.y ∨
  usedNode.y + usedNode.height ≤ freeNode.y

instance (a b : Rect) : Decidable (separated a b) := by
  unfold separated; infer_instance

/-- `MaxRectsPacker.isContained(a, b)`: rectangle `a` lies inside rectangle `b`. -/
def isContained (a b : Rect) : Prop :=
  b.x ≤ a.x ∧ b.y ≤ a.y ∧
  a.x + a.width ≤ b.x + b.width ∧
  a.y + a.height ≤ b.y + b.height

instance (a b : Rect) : Decidable (isContained a b) := by
  unfold isContained; infer_instance

/-- `MaxRectsPacker.splitFreeNode`.  Returns `none` when the used node does not
intersect the free node (the JS function returns `false` and the free node is
kept); otherwise returns the list of residual rectangles, in the order the JS
code pushes them (top, bottom, left, right). -/
def splitFreeNode (freeNode usedNode : Rect) : Option (List Rect) :=
  if separated freeNode usedNode then
    none
  else
    let topBottom :=
      if usedNode.x < freeNode.x + freeNode.width ∧
         freeNode.x < usedNode.x + usedNode.width then
        (if freeNode.y < usedNode.y ∧ usedNode.y < freeNode.y + freeNode.height then
          [⟨freeNode.x, freeNode.y, freeNode.width, usedNode.y - freeNode.y⟩]
        else []) ++
        (if usedNode.y + usedNode.height < freeNode.y + freeNode.height then
          [⟨freeNode.x, usedNode.y + usedNode.height, freeNode.width,
            freeNode.y + freeNode.height - (usedNode.y + usedNode.height)⟩]
        else [])
      else []
    let leftRight :=
      if usedNode.y < freeNode.y + freeNode.height ∧
         freeNode.y < usedNode.y + usedNode.height then
        (if freeNode.x < usedNode.x ∧ usedNode.x < freeNode.x + freeNode.width then
          [⟨freeNode.x, freeNode.y, usedNode.x - freeNode.x, freeNode.height⟩]
        else []) ++
        (if usedNode.x + usedNode.width < freeNode.x + freeNode.width then
          [⟨usedNode.x + usedNode.width, freeNode.y,
            freeNode.x + freeNode.width - (usedNode.x + usedNode.width), freeNode.height⟩]
        else [])
      else []
    some (topBottom ++ leftRight)

/-- Inner loop of `MaxRectsPacker.pruneFreeList` (loop variable `j`), on the
current list `a` with outer index `i`.  Mirrors the JS splice semantics:
removing `a[j]` keeps `j` in place on a shorter list, removing `a[i]` breaks
out of the inner loop (reported by the `Bool`). -/
def pruneRow (a : List Rect) (i j : Nat) : List Rect × Bool :=
  if h : j < a.length then
    if isContained (a.getD i ⟨0, 0, 0, 0⟩) (a.getD j ⟨0, 0, 0, 0⟩) then
      (a.eraseIdx i, true)
    else if isContained (a.getD j ⟨0, 0, 0, 0⟩) (a.getD i ⟨0, 0, 0, 0⟩) then
      pruneRow (a.eraseIdx j) i j
    else
      pruneRow a i (j + 1)
  else
    (a, false)
termination_by a.length - j
decreasing_by
  · have : (a.eraseIdx j).length = a.length - 1 := by
      rw [List.length_eraseIdx]; simp [h]
    omega
  · omega

theorem pruneRow_sublist (a : List Rect) (i j : Nat) : (pruneRow a i j).1.Sublist a := by
  induction a, i, j using pruneRow.induct with
  | case1 a i j h hc =>
      rw [pruneRow]; simp only [h, dif_pos, hc, if_pos]
      exact List.eraseIdx_sublist a i
  | case2 a i j h hc1 hc2 ih =>
      rw [pruneRow]; simp only [h, dif_pos, hc1, if_neg, hc2, if_pos,
        not_false_eq_true]
      exact ih.trans (List.eraseIdx_sublist a j)
  | case3 a i j h hc1 hc2 ih =>
      rw [pruneRow]; simp only [h, dif_pos, hc1, if_neg, hc2,
        not_false_eq_true]
      exact ih
  | case4 a i j h =>
      rw [pruneRow]; simp [h]

theorem pruneRow_length_of_removed (a : List Rect) (i j : Nat) (hij : i < j)
    (h : (pruneRow a i j).2 = true) : (pruneRow a i j).1.length < a.length := by
  induction a, i, j using pruneRow.induct with
  | case1 a i j hj hc =>
      rw [pruneRow]
      simp only [hj, dif_pos, hc, if_pos]
      rw [List.length_eraseIdx]
      have : i < a.length := lt_trans hij hj
      simp [this]; omega
  | case2 a i j hj hc1 hc2 ih =>
      rw [pruneRow] at h ⊢
      simp only [hj, dif_pos, hc1, if_neg, hc2, if_pos, not_false_eq_true] at h ⊢
      have hlen : (a.eraseIdx j).length < a.length := by
        rw [List.length_eraseIdx]; simp [hj]; omega
      exact lt_of_lt_of_le (ih hij h) (le_of_lt hlen)
  | case3 a i j hj hc1 hc2 ih =>
      rw [pruneRow] at h ⊢
      simp only [hj, dif_pos, hc1, if_neg, hc2, not_false_eq_true] at h ⊢
      exact ih (lt_trans hij (Nat.lt_succ_self j)) h
  | case4 a i j hj =>
      rw [pruneRow] at h
      simp [hj] at h

/-- Outer loop of `MaxRectsPacker.pruneFreeList` (loop variable `i`).  When the
inner loop removed element `i`, the JS code does `i--; break`, so the next
outer iteration re-runs the same index on the shorter list. -/
def pruneFrom (a : List Rect) (i : Nat) : List Rect :=
  if h : i < a.length then
    if hrem : (pruneRow a i (i + 1)).2 then
      pruneFrom (pruneRow a i (i + 1)).1 i
    else
      pruneFrom (pruneRow a i (i + 1)).1 (i + 1)
  else
    a
termination_by a.length - i
decreasing_by
  · have := pruneRow_length_of_removed a i (i + 1) (Nat.lt_succ_self i) hrem
    omega
  · have := (pruneRow_sublist a i (i + 1)).length_le
    omega

/-- `MaxRectsPacker.pruneFreeList`. -/
def pruneFreeList (a : List Rect) : List Rect :=
  pruneFrom a 0

theorem pruneFrom_sublist (a : List Rect) (i : Nat) : (pruneFrom a i).Sublist a := by
  induction a, i using pruneFrom.induct with
  | case1 a i h hrow ih =>
      rw [pruneFrom]
      simp only [h, dif_pos, hrow, if_pos]
      exact ih.trans (pruneRow_sublist a i (i + 1))
  | case2 a i h hrow ih =>
      rw [pruneFrom]
      simp only [h, dif_pos, hrow, dite_false]
      exact ih.trans (pruneRow_sublist a i (i + 1))
  | case3 a i h =>
      rw [pruneFrom]; simp [h]

theorem pruneFreeList_sublist (a : List Rect) : (pruneFreeList a).Sublist a :=
  pruneFrom_sublist a 0

/-- `MaxRectsPacker.placeRect`.  The JS loop splices intersecting free rects
out of `freeRects` while `splitFreeNode` pushes their residuals at the end;
the residuals never intersect `rect` again, so the loop's net effect is:
non-intersecting rects kept in order, followed by all residuals in generation
order.  Finally `pruneFreeList` runs. -/
def placeRect (rect : Rect) (free : List Rect) : List Rect :=
  let kept := free.filter (fun f => (splitFreeNode f rect).isNone)
  let residuals := free.foldr (fun f acc => ((splitFreeNode f rect).getD []) ++ acc) []
  pruneFreeList (kept ++ residuals)

/-- Comparison of a candidate score against the running best score of
`findBestNode`; `none` models the initial `Number.MAX_VALUE` sentinel
(every finite score beats it). -/
def beats (s : Int) : Option Int → Prop
  | none => True
  | some b => s < b

instance (s : Int) : (b : Option Int) → Decidable (beats s b)
  | none => isTrue trivial
  | some b => inferInstanceAs (Decidable (s < b))

/-- Loop of `MaxRectsPacker.findBestNode`, with the running `bestScore`
(`none` = `Number.MAX_VALUE`) and `bestRect` accumulators. -/
def findBestNodeAux (w h : Int) :
    Option Int → Rect → List Rect → Option Int × Rect
  | bestScore, bestRect, [] => (bestScore, bestRect)
  | bestScore, bestRect, free :: rest =>
    if w ≤ free.width ∧ h ≤ free.height then
      let shortSideFit := min |free.width - w| |free.height - h|
      if beats shortSideFit bestScore then
        findBestNodeAux w h (some shortSideFit) ⟨free.x, free.y, w, h⟩ rest
      else
        findBestNodeAux w h bestScore bestRect rest
    else
      findBestNodeAux w h bestScore bestRect rest

/-- `MaxRectsPacker.findBestNode`. -/
def findBestNode (w h : Int) (freeRects : List Rect) : Option Int × Rect :=
  findBestNodeAux w h none ⟨0, 0, 0, 0⟩ freeRects

/-- `MaxRectsPacker.insert`, acting on the free-rect list (the only mutable
state the method reads and writes).  Returns the recorded `PackedRect` and the
updated free list, or `none` when the item does not fit
(`bestNode.score === Number.MAX_VALUE`). -/
def insert (padding : Int) (free : List Rect) (task : OptimizationTask) :
    Option (PackedRect × List Rect) :=
  let requiredW := task.targetWidth + padding
  let requiredH := task.targetHeight + padding
  let bestNode := findBestNode requiredW requiredH free
  match bestNode.1 with
  | none => none
  | some _ =>
    some (⟨bestNode.2.x, bestNode.2.y, task.targetWidth, task.targetHeight, task⟩,
          placeRect bestNode.2 free)

/-- Result of one placement pass of `packAtlases` over the remaining items:
the page's placed rects, the carry-over list `didntFit`, and the packer's
final free list. -/
structure PassResult where
  placed : List PackedRect
  didntFit : List OptimizationTask
  free : List Rect
deriving Repr

/-- The `for (const task of remaining)` loop body of `packAtlases`: oversized
items are skipped (`continue`), otherwise `packer.insert` either places the
item or adds it to `didntFit`. -/
def runPass (maxSize padding : Int) :
    List OptimizationTask → List Rect → PassResult
  | [], free => ⟨[], [], free⟩
  | task :: rest, free =>
    if maxSize < task.targetWidth ∨ maxSize < task.targetHeight then
      runPass maxSize padding rest free
    else
      match insert padding free task with
      | some (rect, free2) =>
        let r := runPass maxSize padding rest free2
        ⟨rect :: r.placed, r.didntFit, r.free⟩
      | none =>
        let r := runPass maxSize padding rest free
        ⟨r.placed, task :: r.didntFit, r.free⟩

theorem runPass_length_le (maxSize padding : Int) (tasks : List OptimizationTask)
    (free : List Rect) :
    (runPass maxSize padding tasks free).placed.length +
      (runPass maxSize padding tasks free).didntFit.length ≤ tasks.length := by
  induction tasks generalizing free with
  | nil => simp [runPass]
  | cons task rest ih =>
      rw [runPass]
      by_cases hover : maxSize < task.targetWidth ∨ maxSize < task.targetHeight
      · simp only [hover, if_pos]
        exact le_trans (ih free) (Nat.le_succ _)
      · simp only [hover, if_neg, not_false_eq_true]
        cases hins : insert padding free task with
        | some pr =>
            simp only [List.length_cons]
            have := ih pr.2
            omega
        | none =>
            simp only [List.length_cons]
            have := ih free
            omega

/-- Page construction of `packAtlases`: the efficiency is
`(usedArea / totalArea) * 100` with `usedArea` summed over `p.w * p.h`. -/
def mkPage (idx : Nat) (maxSize : Int) (pageItems : List PackedRect) : AtlasPage :=
  let usedArea : Int := pageItems.foldl (fun acc p => acc + p.w * p.h) 0
  let totalArea : Int := maxSize * maxSize
  ⟨idx, maxSize, maxSize, pageItems, ((usedArea : Rat) / (totalArea : Rat)) * 100⟩

/-- The `while (remaining.length > 0)` loop of `packAtlases`.  A fresh
`MaxRectsPacker` (free list = one full-page rect) is used per iteration; the
page is pushed before the stall-guard check, and the guard breaks when the
pass placed nothing and dropped nothing to the oversize `continue`. -/
def packLoop (maxSize padding : Int) (idx : Nat)
    (remaining : List OptimizationTask) : List AtlasPage :=
  if hrem : remaining.isEmpty then
    []
  else
    if hstall : (runPass maxSize padding remaining [⟨0, 0, maxSize, maxSize⟩]).placed.length = 0 ∧
        (runPass maxSize padding remaining [⟨0, 0, maxSize, maxSize⟩]).didntFit.length =
          remaining.length then
      [mkPage idx maxSize (runPass maxSize padding remaining [⟨0, 0, maxSize, maxSize⟩]).placed]
    else
      mkPage idx maxSize (runPass maxSize padding remaining [⟨0, 0, maxSize, maxSize⟩]).placed ::
        packLoop maxSize padding (idx + 1)
          (runPass maxSize padding remaining [⟨0, 0, maxSize, maxSize⟩]).didntFit
termination_by remaining.length
decreasing_by
  have hle := runPass_length_le maxSize padding remaining [⟨0, 0, maxSize, maxSize⟩]
  omega

/-- Stable sort by descending `targetHeight`: insertion step.  `insertDesc t`
walks past every element strictly taller than `t` and inserts `t` in front of
the first element of height `≤ t`, which is exactly the unique stable order
produced by `Array.prototype.sort` with comparator `(a, b) => b.targetHeight -
a.targetHeight` (stable per the ECMAScript spec). -/
def insertDesc (t : OptimizationTask) : List OptimizationTask → List OptimizationTask
  | [] => [t]
  | u :: rest =>
    if t.targetHeight < u.targetHeight then u :: insertDesc t rest
    else t :: u :: rest

/-- `[...tasks].sort((a, b) => b.targetHeight - a.targetHeight)`. -/
def sortDesc (tasks : List OptimizationTask) : List OptimizationTask :=
  tasks.foldr insertDesc []

/-- `packAtlases(tasks, maxSize, padding)` of `atlasPacker.ts`. -/
def packAtlases (tasks : List OptimizationTask) (maxSize padding : Int) :
    List AtlasPage :=
  packLoop maxSize padding 0 (sortDesc tasks)

/-- The message shape `PackerMessage` of `packer.worker.ts`. -/
structure PackerMessage where
  tasks : List OptimizationTask
  maxSize : Int
  padding : Int

/-- The response posted by the worker: `{ success, pages }` on success,
`{ success: false, error }` on failure. -/
structure WorkerResponse where
  success : Bool
  pages : Option (List AtlasPage)
  error : Option String

/-- The `try` block of the worker handler.  `packAtlases` is a total pure
function in this model, so the call always yields `ok`; the `Except` layer
mirrors the `try/catch` structure of the handler. -/
def packAtlasesRun (m : PackerMessage) : Except String (List AtlasPage) :=
  Except.ok (packAtlases m.tasks m.maxSize m.padding)

/-- `self.onmessage` of `packer.worker.ts`: the list of messages posted back
for one request (the handler posts exactly once on either path). -/
def onmessage (m : PackerMessage) : List WorkerResponse :=
  match packAtlasesRun m with
  | Except.ok pages => [⟨true, some pages, none⟩]
  | Except.error err => [⟨false, none, some err⟩]

/-! ## Geometric helper notions -/

/-- The rectangle actually recorded for a placement: the item's original
`(w, h)` at the chosen origin. -/
def prRect (pr : PackedRect) : Rect :=
  ⟨pr.x, pr.y, pr.w, pr.h⟩

/-- The spatial footprint reserved for a placement: the padded rectangle that
`insert` carves out of the free list (`bestNode.rect`). -/
def footprint (padding : Int) (pr : PackedRect) : Rect :=
  ⟨pr.x, pr.y, pr.w + padding, pr.h + padding⟩

/-- Containment of a rectangle in the square page `[0, s) × [0, s)`. -/
def inPage (s : Int) (r : Rect) : Prop :=
  0 ≤ r.x ∧ 0 ≤ r.y ∧ r.x + r.width ≤ s ∧ r.y + r.height ≤ s

instance (s : Int) (r : Rect) : Decidable (inPage s r) := by
  unfold inPage; infer_instance

theorem separated_symm {a b : Rect} (h : separated a b) : separated b a := by
  unfold separated at *; omega

theorem separated_of_isContained_left {a a2 b : Rect}
    (hc : isContained a a2) (h : separated a2 b) : separated a b := by
  unfold separated isContained at *; omega

theorem separated_of_isContained_both {a a2 b b2 : Rect}
    (hca : isContained a a2) (hcb : isContained b b2) (h : separated a2 b2) :
    separated a b := by
  unfold separated isContained at *; omega

theorem inPage_of_isContained {s : Int} {a b : Rect}
    (hc : isContained a b) (h : inPage s b) : inPage s a := by
  unfold inPage isContained at *; omega

theorem isContained_refl (a : Rect) : isContained a a := by
  unfold isContained; omega

/-! ## Lemmas about `splitFreeNode` and `placeRect` -/

theorem splitFreeNode_none_iff {freeNode usedNode : Rect} :
    splitFreeNode freeNode usedNode = none ↔ separated freeNode usedNode := by
  unfold splitFreeNode
  by_cases h : separated freeNode usedNode <;> simp [h]

theorem splitFreeNode_some_mem {freeNode usedNode r : Rect} {rs : List Rect}
    (hs : splitFreeNode freeNode usedNode = some rs) (hr : r ∈ rs) :
    isContained r freeNode ∧ separated r usedNode := by
  unfold splitFreeNode at hs
  by_cases hsep : separated freeNode usedNode
  · simp [hsep] at hs
  · simp only [hsep, if_neg, not_false_eq_true, Option.some.injEq] at hs
    subst hs
    unfold separated at hsep
    simp only [List.mem_append] at hr
    rcases hr with hr | hr
    · split at hr
      · rw [List.mem_append] at hr
        rcases hr with hr | hr
        · split at hr
          · rw [List.mem_singleton] at hr
            subst hr
            constructor <;> (simp only [isContained, separated]; omega)
          · simp at hr
        · split at hr
          · rw [List.mem_singleton] at hr
            subst hr
            constructor <;> (simp only [isContained, separated]; omega)
          · simp at hr
      · simp at hr
    · split at hr
      · rw [List.mem_append] at hr
        rcases hr with hr | hr
        · split at hr
          · rw [List.mem_singleton] at hr
            subst hr
            constructor <;> (simp only [isContained, separated]; omega)
          · simp at hr
        · split at hr
          · rw [List.mem_singleton] at hr
            subst hr
            constructor <;> (simp only [isContained, separated]; omega)
          · simp at hr
      · simp at hr

theorem mem_foldr_residuals {usedNode : Rect} {free : List Rect} {e : Rect}
    (h : e ∈ free.foldr (fun f acc => ((splitFreeNode f usedNode).getD []) ++ acc) []) :
    ∃ f ∈ free, ∃ rs, splitFreeNode f usedNode = some rs ∧ e ∈ rs := by
  induction free with
  | nil => simp at h
  | cons f rest ih =>
      simp only [List.foldr_cons, List.mem_append] at h
      rcases h with h | h
      · refine ⟨f, List.mem_cons_self f rest, ?_⟩
        cases hsplit : splitFreeNode f usedNode with
        | none => rw [hsplit] at h; simp at h
        | some rs => rw [hsplit] at h; exact ⟨rs, rfl, by simpa using h⟩
      · obtain ⟨f2, hf2, rs, hrs, he⟩ := ih h
        exact ⟨f2, List.mem_cons_of_mem f hf2, rs, hrs, he⟩

/-- Every rectangle in the free list after `placeRect rect free` is either an
original free rectangle not intersecting `rect`, or a residual of a split
original; in both cases it lies inside some original free rectangle and is
separated from `rect`. -/
theorem placeRect_mem {rect : Rect} {free : List Rect} {e : Rect}
    (h : e ∈ placeRect rect free) :
    ∃ f ∈ free, isContained e f ∧ separated e rect := by
  unfold placeRect at h
  have h2 := (pruneFreeList_sublist _).mem h
  rw [List.mem_append] at h2
  rcases h2 with h2 | h2
  · rw [List.mem_filter] at h2
    obtain ⟨hmem, hnone⟩ := h2
    rw [Option.isNone_iff_eq_none, splitFreeNode_none_iff] at hnone
    exact ⟨e, hmem, isContained_refl e, hnone⟩
  · obtain ⟨f, hf, rs, hrs, he⟩ := mem_foldr_residuals h2
    obtain ⟨hc, hsep⟩ := splitFreeNode_some_mem hrs he
    exact ⟨f, hf, hc, hsep⟩

/-! ## Lemmas about `findBestNode` and `insert` -/

/-- A free rectangle qualifies for a required footprint `(w, h)` when both its
sides are at least as large (`free.width >= w && free.height >= h`). -/
def qualifies (w h : Int) (f : Rect) : Prop :=
  w ≤ f.width ∧ h ≤ f.height

instance (w h : Int) (f : Rect) : Decidable (qualifies w h f) := by
  unfold qualifies; infer_instance

/-- The Best Short Side Fit score of a free rectangle for footprint `(w, h)`. -/
def bssf (w h : Int) (f : Rect) : Int :=
  min |f.width - w| |f.height - h|

theorem findBestNodeAux_some_of_some (w h : Int) (l : List Rect) :
    ∀ (b : Int) (r0 : Rect), ((findBestNodeAux w h (some b) r0 l).1).isSome := by
  induction l with
  | nil => intro b r0; simp [findBestNodeAux]
  | cons f rest ih =>
      intro b r0
      rw [findBestNodeAux]
      by_cases hq : w ≤ f.width ∧ h ≤ f.height
      · simp only [hq, if_pos]
        by_cases hb : beats (min |f.width - w| |f.height - h|) (some b)
        · simp only [hb, if_pos]; exact ih _ _
        · simp only [hb, if_neg, not_false_eq_true]; exact ih _ _
      · simp only [hq, if_neg, not_false_eq_true]; exact ih _ _

theorem findBestNodeAux_none_iff (w h : Int) (l : List Rect) (r0 : Rect) :
    (findBestNodeAux w h none r0 l).1 = none ↔ ∀ f ∈ l, ¬qualifies w h f := by
  induction l generalizing r0 with
  | nil => simp [findBestNodeAux]
  | cons f rest ih =>
      rw [findBestNodeAux]
      by_cases hq : w ≤ f.width ∧ h ≤ f.height
      · rw [if_pos hq]
        have hbeats : beats (min |f.width - w| |f.height - h|) none := trivial
        rw [if_pos hbeats]
        constructor
        · intro hres
          have := findBestNodeAux_some_of_some w h rest
            (min |f.width - w| |f.height - h|) ⟨f.x, f.y, w, h⟩
          rw [hres] at this
          simp at this
        · intro hall
          exact absurd hq (hall f (List.mem_cons_self f rest))
      · rw [if_neg hq]
        rw [ih r0]
        constructor
        · intro hall g hg
          rcases List.mem_cons.mp hg with hg | hg
          · subst hg; exact fun hqq => hq hqq
          · exact hall g hg
        · intro hall g hg
          exact hall g (List.mem_cons_of_mem f hg)

/-- The accumulator-shape lemma: `findBestNodeAux` either returns its
accumulator unchanged, or returns the score and node of some qualifying
rectangle of the list. -/
theorem findBestNodeAux_cases (w h : Int) (l : List Rect) :
    ∀ (b : Option Int) (r0 : Rect),
      findBestNodeAux w h b r0 l = (b, r0) ∨
      ∃ f ∈ l, qualifies w h f ∧
        findBestNodeAux w h b r0 l = (some (bssf w h f), ⟨f.x, f.y, w, h⟩) := by
  induction l with
  | nil => intro b r0; left; rfl
  | cons f rest ih =>
      intro b r0
      rw [findBestNodeAux]
      by_cases hq : w ≤ f.width ∧ h ≤ f.height
      · simp only [hq, if_pos]
        by_cases hb : beats (min |f.width - w| |f.height - h|) b
        · simp only [hb, if_pos]
          rcases ih (some (min |f.width - w| |f.height - h|)) ⟨f.x, f.y, w, h⟩ with
            hcase | ⟨g, hg, hgq, hcase⟩
          · right
            exact ⟨f, List.mem_cons_self f rest, hq, hcase⟩
          · right
            exact ⟨g, List.mem_cons_of_mem f hg, hgq, hcase⟩
        · simp only [hb, if_neg, not_false_eq_true]
          rcases ih b r0 with hcase | ⟨g, hg, hgq, hcase⟩
          · left; exact hcase
          · right; exact ⟨g, List.mem_cons_of_mem f hg, hgq, hcase⟩
      · simp only [hq, if_neg, not_false_eq_true]
        rcases ih b r0 with hcase | ⟨g, hg, hgq, hcase⟩
        · left; exact hcase
        · right; exact ⟨g, List.mem_cons_of_mem f hg, hgq, hcase⟩

/-- On success, `findBestNode` returns the origin of a qualifying free
rectangle with the required footprint as dimensions. -/
theorem findBestNode_some_mem {w h : Int} {free : List Rect} {s0 : Int} {rect : Rect}
    (hres : findBestNode w h free = (some s0, rect)) :
    ∃ f ∈ free, qualifies w h f ∧ rect = ⟨f.x, f.y, w, h⟩ := by
  unfold findBestNode at hres
  rcases findBestNodeAux_cases w h free none ⟨0, 0, 0, 0⟩ with hcase | ⟨f, hf, hfq, hcase⟩
  · rw [hcase] at hres
    simp at hres
  · rw [hcase] at hres
    injection hres with h1 h2
    exact ⟨f, hf, hfq, h2.symm⟩

/-- `insert` written with the two reads of `bestNode` spelled out. -/
theorem insert_eq_match (padding : Int) (free : List Rect) (task : OptimizationTask) :
    insert padding free task =
      match (findBestNode (task.targetWidth + padding) (task.targetHeight + padding) free).1 with
      | none => none
      | some _ =>
        some (⟨(findBestNode (task.targetWidth + padding) (task.targetHeight + padding) free).2.x,
               (findBestNode (task.targetWidth + padding) (task.targetHeight + padding) free).2.y,
               task.targetWidth, task.targetHeight, task⟩,
              placeRect
                (findBestNode (task.targetWidth + padding) (task.targetHeight + padding) free).2
                free) := rfl

theorem insert_none_iff (padding : Int) (free : List Rect) (task : OptimizationTask) :
    insert padding free task = none ↔
      ∀ f ∈ free, ¬qualifies (task.targetWidth + padding) (task.targetHeight + padding) f := by
  rw [insert_eq_match]
  cases hfb : (findBestNode (task.targetWidth + padding) (task.targetHeight + padding) free).1 with
  | none =>
      simp only [true_iff]
      exact (findBestNodeAux_none_iff (task.targetWidth + padding)
        (task.targetHeight + padding) free ⟨0, 0, 0, 0⟩).mp hfb
  | some s0 =>
      refine iff_of_false (by simp) ?_
      intro hall
      have hnone : (findBestNode (task.targetWidth + padding)
          (task.targetHeight + padding) free).1 = none :=
        (findBestNodeAux_none_iff _ _ free ⟨0, 0, 0, 0⟩).mpr hall
      rw [hfb] at hnone
      exact Option.noConfusion hnone

/-- Structure of a successful `insert`: the recorded rect keeps the item's
original dimensions and task, sits at the origin of a qualifying free
rectangle, and the new free list is `placeRect` of the padded footprint. -/
theorem insert_some_elim {padding : Int} {free : List Rect} {task : OptimizationTask}
    {pr : PackedRect} {free2 : List Rect}
    (hins : insert padding free task = some (pr, free2)) :
    pr.w = task.targetWidth ∧ pr.h = task.targetHeight ∧ pr.task = task ∧
    ∃ f ∈ free, qualifies (task.targetWidth + padding) (task.targetHeight + padding) f ∧
      pr.x = f.x ∧ pr.y = f.y ∧
      free2 = placeRect ⟨f.x, f.y, task.targetWidth + padding, task.targetHeight + padding⟩
        free := by
  rw [insert_eq_match] at hins
  cases hfb : (findBestNode (task.targetWidth + padding)
      (task.targetHeight + padding) free).1 with
  | none => rw [hfb] at hins; exact Option.noConfusion hins
  | some s0 =>
      rw [hfb] at hins
      simp only [Option.some.injEq, Prod.mk.injEq] at hins
      obtain ⟨hpr, hfree2⟩ := hins
      have hfb2 : findBestNode (task.targetWidth + padding)
          (task.targetHeight + padding) free =
          (some s0, (findBestNode (task.targetWidth + padding)
            (task.targetHeight + padding) free).2) := by
        rw [← hfb]
      obtain ⟨f, hf, hfq, hrect⟩ := findBestNode_some_mem hfb2
      refine ⟨?_, ?_, ?_, f, hf, hfq, ?_, ?_, ?_⟩ <;>
        simp [← hpr, ← hfree2, hrect]
/-! ## The MaxRects state invariant -/

/-- Invariant of the packer state on a page of size `s`: every free rectangle
and every already-used (padded) rectangle lies inside the page, free
rectangles never intersect used ones, and used rectangles are pairwise
non-intersecting. -/
structure PackerInv (s : Int) (free : List Rect) (used : List Rect) : Prop where
  free_in : ∀ f ∈ free, inPage s f
  used_in : ∀ u ∈ used, inPage s u
  free_used : ∀ f ∈ free, ∀ u ∈ used, separated f u
  used_pair : used.Pairwise separated

theorem separated_symmetric : Symmetric separated :=
  fun _ _ h => separated_symm h

theorem PackerInv.perm {s : Int} {free : List Rect} {used1 used2 : List Rect}
    (hperm : used1.Perm used2) (h : PackerInv s free used1) : PackerInv s free used2 where
  free_in := h.free_in
  used_in := fun u hu => h.used_in u (hperm.mem_iff.mpr hu)
  free_used := fun f hf u hu => h.free_used f hf u (hperm.mem_iff.mpr hu)
  used_pair := (hperm.pairwise_iff (fun hab => separated_symm hab)).mp h.used_pair

theorem packerInv_initial (s : Int) : PackerInv s [⟨0, 0, s, s⟩] [] where
  free_in := by
    intro f hf
    rw [List.mem_singleton] at hf
    subst hf
    simp only [inPage]
    omega
  used_in := by intro u hu; simp at hu
  free_used := by intro f hf u hu; simp at hu
  used_pair := List.Pairwise.nil

/-- A successful `insert` preserves the invariant, adding the placed item's
padded footprint to the used set. -/
theorem insert_inv {s padding : Int} {free : List Rect} {used : List Rect}
    {task : OptimizationTask} {pr : PackedRect} {free2 : List Rect}
    (hinv : PackerInv s free used)
    (hins : insert padding free task = some (pr, free2)) :
    PackerInv s free2 (footprint padding pr :: used) := by
  obtain ⟨hw, hh, -, f, hf, hfq, hx, hy, hfree2⟩ := insert_some_elim hins
  have hB : footprint padding pr =
      ⟨f.x, f.y, task.targetWidth + padding, task.targetHeight + padding⟩ := by
    simp [footprint, hw, hh, hx, hy]
  have hBf : isContained (footprint padding pr) f := by
    rw [hB]
    obtain ⟨h1, h2⟩ := hfq
    simp only [isContained]
    omega
  have hBin : inPage s (footprint padding pr) :=
    inPage_of_isContained hBf (hinv.free_in f hf)
  have hBused : ∀ u ∈ used, separated (footprint padding pr) u := fun u hu =>
    separated_of_isContained_left hBf (hinv.free_used f hf u hu)
  have hmem : ∀ e ∈ free2, ∃ g ∈ free, isContained e g ∧
      separated e (footprint padding pr) := by
    intro e he
    rw [hfree2] at he
    obtain ⟨g, hg, hc, hsep⟩ := placeRect_mem he
    rw [← hB] at hsep
    exact ⟨g, hg, hc, hsep⟩
  refine ⟨?_, ?_, ?_, ?_⟩
  · intro e he
    obtain ⟨g, hg, hc, -⟩ := hmem e he
    exact inPage_of_isContained hc (hinv.free_in g hg)
  · intro u hu
    rcases List.mem_cons.mp hu with hu | hu
    · subst hu; exact hBin
    · exact hinv.used_in u hu
  · intro e he u hu
    obtain ⟨g, hg, hc, hsep⟩ := hmem e he
    rcases List.mem_cons.mp hu with hu | hu
    · subst hu; exact hsep
    · exact separated_of_isContained_left hc (hinv.free_used g hg u hu)
  · exact List.Pairwise.cons hBused hinv.used_pair

/-- A full placement pass preserves the invariant, adding the footprints of
everything it placed to the used set. -/
theorem runPass_inv {s padding : Int} {used : List Rect}
    (tasks : List OptimizationTask) (free : List Rect)
    (hinv : PackerInv s free used) :
    PackerInv s (runPass s padding tasks free).free
      ((runPass s padding tasks free).placed.map (footprint padding) ++ used) := by
  induction tasks generalizing free used with
  | nil => simpa [runPass] using hinv
  | cons task rest ih =>
      rw [runPass]
      by_cases hover : s < task.targetWidth ∨ s < task.targetHeight
      · rw [if_pos hover]
        exact ih free hinv
      · rw [if_neg hover]
        cases hins : insert padding free task with
        | some pf =>
            obtain ⟨pr, free2⟩ := pf
            have hinv2 := insert_inv hinv hins
            have hrec := ih free2 hinv2
            simp only
            refine PackerInv.perm ?_ hrec
            simp only [List.map_cons]
            exact List.perm_middle
        | none =>
            simp only
            exact ih free hinv

/-- The placements produced by one pass on a fresh page have pairwise
separated padded footprints, all inside the page. -/
theorem runPass_placed_good (s padding : Int) (tasks : List OptimizationTask) :
    ((runPass s padding tasks [⟨0, 0, s, s⟩]).placed.map (footprint padding)).Pairwise
        separated ∧
      ∀ pr ∈ (runPass s padding tasks [⟨0, 0, s, s⟩]).placed,
        inPage s (footprint padding pr) := by
  have h := @runPass_inv s padding [] tasks [⟨0, 0, s, s⟩]
    (packerInv_initial s)
  rw [List.append_nil] at h
  refine ⟨h.used_pair, fun pr hpr => ?_⟩
  exact h.used_in (footprint padding pr) (List.mem_map_of_mem (footprint padding) hpr)

/-! ## Structural lemmas about `runPass` and `packLoop` -/

theorem runPass_placed_elim (s padding : Int) (tasks : List OptimizationTask)
    (free : List Rect) :
    ∀ pr ∈ (runPass s padding tasks free).placed,
      pr.w = pr.task.targetWidth ∧ pr.h = pr.task.targetHeight ∧
      pr.task ∈ tasks ∧ pr.task.targetWidth ≤ s ∧ pr.task.targetHeight ≤ s := by
  induction tasks generalizing free with
  | nil => intro pr hpr; simp [runPass] at hpr
  | cons task rest ih =>
      intro pr hpr
      rw [runPass] at hpr
      by_cases hover : s < task.targetWidth ∨ s < task.targetHeight
      · rw [if_pos hover] at hpr
        obtain ⟨h1, h2, h3, h4, h5⟩ := ih free pr hpr
        exact ⟨h1, h2, List.mem_cons_of_mem task h3, h4, h5⟩
      · rw [if_neg hover] at hpr
        push_neg at hover
        cases hins : insert padding free task with
        | some pf =>
            obtain ⟨pr2, free2⟩ := pf
            rw [hins] at hpr
            simp only [List.mem_cons] at hpr
            rcases hpr with hpr | hpr
            · subst hpr
              obtain ⟨hw, hh, htask, -⟩ := insert_some_elim hins
              rw [hw, hh, htask]
              exact ⟨rfl, rfl, List.mem_cons_self task rest, hover.1, hover.2⟩
            · obtain ⟨h1, h2, h3, h4, h5⟩ := ih free2 pr hpr
              exact ⟨h1, h2, List.mem_cons_of_mem task h3, h4, h5⟩
        | none =>
            rw [hins] at hpr
            obtain ⟨h1, h2, h3, h4, h5⟩ := ih free pr hpr
            exact ⟨h1, h2, List.mem_cons_of_mem task h3, h4, h5⟩

theorem runPass_didntFit_sublist (s padding : Int) (tasks : List OptimizationTask)
    (free : List Rect) :
    (runPass s padding tasks free).didntFit.Sublist tasks := by
  induction tasks generalizing free with
  | nil => simp [runPass]
  | cons task rest ih =>
      rw [runPass]
      by_cases hover : s < task.targetWidth ∨ s < task.targetHeight
      · rw [if_pos hover]
        exact (ih free).trans (List.sublist_cons_self task rest)
      · rw [if_neg hover]
        cases hins : insert padding free task with
        | some pf =>
            simp only
            exact (ih pf.2).trans (List.sublist_cons_self task rest)
        | none =>
            simp only
            exact List.Sublist.cons₂ task (ih free)

theorem runPass_placedTasks_sublist (s padding : Int) (tasks : List OptimizationTask)
    (free : List Rect) :
    ((runPass s padding tasks free).placed.map PackedRect.task).Sublist tasks := by
  induction tasks generalizing free with
  | nil => simp [runPass]
  | cons task rest ih =>
      rw [runPass]
      by_cases hover : s < task.targetWidth ∨ s < task.targetHeight
      · rw [if_pos hover]
        exact (ih free).trans (List.sublist_cons_self task rest)
      · rw [if_neg hover]
        cases hins : insert padding free task with
        | some pf =>
            obtain ⟨pr2, free2⟩ := pf
            simp only [List.map_cons]
            obtain ⟨-, -, htask, -⟩ := insert_some_elim hins
            rw [htask]
            exact List.Sublist.cons₂ task (ih free2)
        | none =>
            simp only
            exact (ih free).trans (List.sublist_cons_self task rest)

/-- Conservation within one pass: when no item is oversized (so the
`continue` never fires), every task ends up either placed or carried over. -/
theorem runPass_perm (s padding : Int) (tasks : List OptimizationTask)
    (free : List Rect)
    (hsize : ∀ t ∈ tasks, t.targetWidth ≤ s ∧ t.targetHeight ≤ s) :
    ((runPass s padding tasks free).placed.map PackedRect.task ++
      (runPass s padding tasks free).didntFit).Perm tasks := by
  induction tasks generalizing free with
  | nil => simp [runPass]
  | cons task rest ih =>
      rw [runPass]
      have hover : ¬(s < task.targetWidth ∨ s < task.targetHeight) := by
        have := hsize task (List.mem_cons_self task rest)
        omega
      rw [if_neg hover]
      have hrest : ∀ t ∈ rest, t.targetWidth ≤ s ∧ t.targetHeight ≤ s :=
        fun t ht => hsize t (List.mem_cons_of_mem task ht)
      cases hins : insert padding free task with
      | some pf =>
          obtain ⟨pr2, free2⟩ := pf
          simp only [List.map_cons]
          obtain ⟨-, -, htask, -⟩ := insert_some_elim hins
          rw [htask, List.cons_append]
          exact (ih free2 hrest).cons task
      | none =>
          simp only
          refine List.Perm.trans List.perm_middle ?_
          exact (ih free hrest).cons task

/-- If the head of the remaining list fits on a fresh page (its padded
footprint is at most the page size), the pass places at least one item. -/
theorem runPass_placed_ne_nil (s padding : Int) (task : OptimizationTask)
    (rest : List OptimizationTask)
    (hw : task.targetWidth + padding ≤ s) (hh : task.targetHeight + padding ≤ s)
    (hp : 0 ≤ padding) :
    (runPass s padding (task :: rest) [⟨0, 0, s, s⟩]).placed ≠ [] := by
  rw [runPass]
  have hover : ¬(s < task.targetWidth ∨ s < task.targetHeight) := by omega
  rw [if_neg hover]
  cases hins : insert padding [(⟨0, 0, s, s⟩ : Rect)] task with
  | some pf => simp
  | none =>
      exfalso
      rw [insert_none_iff] at hins
      exact hins ⟨0, 0, s, s⟩ (List.mem_singleton_self _) ⟨hw, hh⟩

/-- All tasks oversized: the pass is a no-op. -/
theorem runPass_all_oversized (s padding : Int) (tasks : List OptimizationTask)
    (free : List Rect)
    (hsize : ∀ t ∈ tasks, s < t.targetWidth ∨ s < t.targetHeight) :
    runPass s padding tasks free = ⟨[], [], free⟩ := by
  induction tasks with
  | nil => rfl
  | cons task rest ih =>
      rw [runPass]
      rw [if_pos (hsize task (List.mem_cons_self task rest))]
      exact ih fun t ht => hsize t (List.mem_cons_of_mem task ht)

/-- Every page of `packLoop` is `mkPage` of the placements of a pass on a
fresh page over some sub-sequence of the remaining items. -/
theorem packLoop_pages (s padding : Int) (idx : Nat) (rem : List OptimizationTask) :
    ∀ pg ∈ packLoop s padding idx rem,
      ∃ (idx2 : Nat) (rem2 : List OptimizationTask), rem2.Sublist rem ∧
        pg = mkPage idx2 s (runPass s padding rem2 [⟨0, 0, s, s⟩]).placed := by
  induction idx, rem using packLoop.induct s padding with
  | case1 idx rem hrem =>
      rw [packLoop, dif_pos hrem]
      intro pg hpg
      simp at hpg
  | case2 idx rem hrem hstall =>
      rw [packLoop, dif_neg hrem, dif_pos hstall]
      intro pg hpg
      rw [List.mem_singleton] at hpg
      exact ⟨idx, rem, List.Sublist.refl rem, hpg⟩
  | case3 idx rem hrem hstall ih =>
      rw [packLoop, dif_neg hrem, dif_neg hstall]
      intro pg hpg
      rcases List.mem_cons.mp hpg with hpg | hpg
      · exact ⟨idx, rem, List.Sublist.refl rem, hpg⟩
      · obtain ⟨idx2, rem2, hsub, hpg2⟩ := ih pg hpg
        exact ⟨idx2, rem2,
          hsub.trans (runPass_didntFit_sublist s padding rem [⟨0, 0, s, s⟩]), hpg2⟩

/-! ## Lemmas about the descending-height sort -/

theorem insertDesc_perm (t : OptimizationTask) (l : List OptimizationTask) :
    (insertDesc t l).Perm (t :: l) := by
  induction l with
  | nil => exact List.Perm.refl _
  | cons u rest ih =>
      rw [insertDesc]
      by_cases hlt : t.targetHeight < u.targetHeight
      · rw [if_pos hlt]
        exact (ih.cons u).trans (List.Perm.swap t u rest)
      · rw [if_neg hlt]

theorem sortDesc_perm (l : List OptimizationTask) : (sortDesc l).Perm l := by
  induction l with
  | nil => exact List.Perm.refl _
  | cons t rest ih =>
      rw [sortDesc, List.foldr_cons]
      exact (insertDesc_perm t _).trans (ih.cons t)

theorem insertDesc_sorted (t : OptimizationTask) (l : List OptimizationTask)
    (hl : l.Pairwise (fun a b => b.targetHeight ≤ a.targetHeight)) :
    (insertDesc t l).Pairwise (fun a b => b.targetHeight ≤ a.targetHeight) := by
  induction l with
  | nil => exact List.pairwise_singleton _ t
  | cons u rest ih =>
      rw [insertDesc]
      obtain ⟨hu, hrest⟩ := List.pairwise_cons.mp hl
      by_cases hlt : t.targetHeight < u.targetHeight
      · rw [if_pos hlt]
        refine List.pairwise_cons.mpr ⟨?_, ih hrest⟩
        intro v hv
        rcases List.mem_cons.mp ((insertDesc_perm t rest).mem_iff.mp hv) with hv | hv
        · subst hv; omega
        · exact hu v hv
      · rw [if_neg hlt]
        refine List.pairwise_cons.mpr ⟨?_, hl⟩
        intro v hv
        rcases List.mem_cons.mp hv with hv | hv
        · subst hv; omega
        · have := hu v hv; omega

theorem sortDesc_sorted (l : List OptimizationTask) :
    (sortDesc l).Pairwise (fun a b => b.targetHeight ≤ a.targetHeight) := by
  induction l with
  | nil => exact List.Pairwise.nil
  | cons t rest ih =>
      rw [sortDesc, List.foldr_cons]
      exact insertDesc_sorted t _ ih

theorem filter_insertDesc_of_eq (t : OptimizationTask) (l : List OptimizationTask)
    (hv : Int) (ht : t.targetHeight = hv) :
    (insertDesc t l).filter (fun u => decide (u.targetHeight = hv)) =
      t :: l.filter (fun u => decide (u.targetHeight = hv)) := by
  induction l with
  | nil => simp [insertDesc, List.filter, ht]
  | cons u rest ih =>
      rw [insertDesc]
      by_cases hlt : t.targetHeight < u.targetHeight
      · rw [if_pos hlt]
        have hune : ¬(u.targetHeight = hv) := by omega
        simp [List.filter_cons, hune, ih]
      · rw [if_neg hlt]
        simp [List.filter_cons, ht]

theorem filter_insertDesc_of_ne (t : OptimizationTask) (l : List OptimizationTask)
    (hv : Int) (ht : ¬t.targetHeight = hv) :
    (insertDesc t l).filter (fun u => decide (u.targetHeight = hv)) =
      l.filter (fun u => decide (u.targetHeight = hv)) := by
  induction l with
  | nil => simp [insertDesc, List.filter, ht]
  | cons u rest ih =>
      rw [insertDesc]
      by_cases hlt : t.targetHeight < u.targetHeight
      · rw [if_pos hlt]
        simp only [List.filter_cons, ih]
      · rw [if_neg hlt]
        simp [List.filter_cons, ht]

/-- Stability of the sort: items of any fixed height keep their input order. -/
theorem sortDesc_stable (l : List OptimizationTask) (hv : Int) :
    (sortDesc l).filter (fun u => decide (u.targetHeight = hv)) =
      l.filter (fun u => decide (u.targetHeight = hv)) := by
  induction l with
  | nil => rfl
  | cons t rest ih =>
      rw [sortDesc, List.foldr_cons]
      rw [show List.foldr insertDesc [] rest = sortDesc rest from rfl]
      by_cases ht : t.targetHeight = hv
      · rw [filter_insertDesc_of_eq t _ hv ht, ih]
        simp [List.filter_cons, ht]
      · rw [filter_insertDesc_of_ne t _ hv ht, ih]
        simp [List.filter_cons, ht]

/-! ## Conservation through the page loop -/

theorem mkPage_items (idx : Nat) (s : Int) (pageItems : List PackedRect) :
    (mkPage idx s pageItems).items = pageItems := rfl

/-- Under the fit condition `dimension + padding ≤ page size` for every
remaining item, the loop places every item exactly once and never produces an
empty page (so the stall-guard never fires). -/
theorem packLoop_conserves (s padding : Int) (hp : 0 ≤ padding)
    (idx : Nat) (rem : List OptimizationTask)
    (hfit : ∀ t ∈ rem, t.targetWidth + padding ≤ s ∧ t.targetHeight + padding ≤ s) :
    ((packLoop s padding idx rem).flatMap (fun pg => pg.items.map PackedRect.task)).Perm
        rem ∧
      ∀ pg ∈ packLoop s padding idx rem, pg.items ≠ [] := by
  induction idx, rem using packLoop.induct s padding with
  | case1 idx rem hrem =>
      rw [packLoop, dif_pos hrem]
      rw [List.isEmpty_iff] at hrem
      subst hrem
      exact ⟨List.Perm.refl _, by simp⟩
  | case2 idx rem hrem hstall =>
      exfalso
      rw [List.isEmpty_iff] at hrem
      obtain ⟨t, rest, rfl⟩ := List.exists_cons_of_ne_nil hrem
      obtain ⟨hw, hh⟩ := hfit t (List.mem_cons_self t rest)
      have hne := runPass_placed_ne_nil s padding t rest hw hh hp
      rw [← List.length_pos] at hne
      omega
  | case3 idx rem hrem hstall ih =>
      rw [packLoop, dif_neg hrem, dif_neg hstall]
      have hsubl := runPass_didntFit_sublist s padding rem [⟨0, 0, s, s⟩]
      have hfit2 : ∀ t ∈ (runPass s padding rem [⟨0, 0, s, s⟩]).didntFit,
          t.targetWidth + padding ≤ s ∧ t.targetHeight + padding ≤ s :=
        fun t ht => hfit t (hsubl.mem ht)
      obtain ⟨ihperm, ihne⟩ := ih hfit2
      constructor
      · simp only [List.flatMap_cons, mkPage_items]
        have hperm2 : ((runPass s padding rem [⟨0, 0, s, s⟩]).placed.map PackedRect.task ++
            (packLoop s padding (idx + 1)
              (runPass s padding rem [⟨0, 0, s, s⟩]).didntFit).flatMap
                (fun pg => pg.items.map PackedRect.task)).Perm
            ((runPass s padding rem [⟨0, 0, s, s⟩]).placed.map PackedRect.task ++
              (runPass s padding rem [⟨0, 0, s, s⟩]).didntFit) :=
          List.Perm.append_left _ ihperm
        refine hperm2.trans ?_
        refine runPass_perm s padding rem [⟨0, 0, s, s⟩] ?_
        intro t ht
        have := hfit t ht
        omega
      · intro pg hpg
        rcases List.mem_cons.mp hpg with hpg | hpg
        · subst hpg
          rw [mkPage_items]
          rw [List.isEmpty_iff] at hrem
          obtain ⟨t, rest, hrem2⟩ := List.exists_cons_of_ne_nil hrem
          obtain ⟨hw, hh⟩ := hfit t (hrem2 ▸ List.mem_cons_self t rest)
          rw [hrem2]
          exact runPass_placed_ne_nil s padding t rest hw hh hp
        · exact ihne pg hpg

/-! ## Area bound for separated rectangles inside the page -/

/-- The set of unit cells covered by a rectangle (its discretisation on the
integer grid); separated integer rectangles cover disjoint cell sets. -/
def cells (r : Rect) : Finset (Int × Int) :=
  Finset.Ico r.x (r.x + r.width) ×ˢ Finset.Ico r.y (r.y + r.height)

theorem cells_card (r : Rect) : (cells r).card = r.width.toNat * r.height.toNat := by
  rw [cells, Finset.card_product, Int.card_Ico, Int.card_Ico]
  congr 1 <;> omega

theorem cells_subset_page {s : Int} {r : Rect} (hin : inPage s r) :
    cells r ⊆ Finset.Ico 0 s ×ˢ Finset.Ico 0 s := by
  intro c hc
  rw [cells, Finset.mem_product, Finset.mem_Ico, Finset.mem_Ico] at hc
  rw [Finset.mem_product, Finset.mem_Ico, Finset.mem_Ico]
  obtain ⟨h1, h2, h3, h4⟩ := hin
  omega

theorem cells_disjoint {a b : Rect} (hsep : separated a b) :
    Disjoint (cells a) (cells b) := by
  rw [Finset.disjoint_left]
  intro c hca hcb
  rw [cells, Finset.mem_product, Finset.mem_Ico, Finset.mem_Ico] at hca hcb
  rw [separated] at hsep
  omega

theorem sum_cells_card_le (L : List Rect) (big : Finset (Int × Int))
    (hsub : ∀ r ∈ L, cells r ⊆ big)
    (hdisj : L.Pairwise (fun a b => Disjoint (cells a) (cells b))) :
    (L.map fun r => (cells r).card).sum ≤ big.card := by
  induction L generalizing big with
  | nil => simp
  | cons r rest ih =>
      obtain ⟨hr, hrest⟩ := List.pairwise_cons.mp hdisj
      have hrbig : cells r ⊆ big := hsub r (List.mem_cons_self r rest)
      have hsub2 : ∀ g ∈ rest, cells g ⊆ big \ cells r := by
        intro g hg
        refine Finset.subset_sdiff.mpr ⟨hsub g (List.mem_cons_of_mem r hg), ?_⟩
        exact (hr g hg).symm
      have hih := ih (big \ cells r) hsub2 hrest
      rw [Finset.card_sdiff hrbig] at hih
      have hcard := Finset.card_le_card hrbig
      simp only [List.map_cons, List.sum_cons]
      omega

/-- The `usedArea` accumulation of `packAtlases` as a list sum. -/
theorem foldl_area_eq_sum (L : List PackedRect) :
    (L.foldl (fun acc p => acc + p.w * p.h) 0) = (L.map fun p => p.w * p.h).sum := by
  suffices h : ∀ a : Int, (L.foldl (fun acc p => acc + p.w * p.h) a) =
      a + (L.map fun p => p.w * p.h).sum by
    simpa using h 0
  induction L with
  | nil => intro a; simp
  | cons p rest ih =>
      intro a
      simp only [List.foldl_cons, List.map_cons, List.sum_cons, ih]
      ring

theorem sum_area_eq_sum_cells (L : List Rect)
    (hpos : ∀ r ∈ L, 0 ≤ r.width ∧ 0 ≤ r.height) :
    (L.map fun r => r.width * r.height).sum =
      ((L.map fun r => (cells r).card).sum : Int) := by
  induction L with
  | nil => simp
  | cons r rest ih =>
      have hr := hpos r (List.mem_cons_self r rest)
      have ihh := ih fun g hg => hpos g (List.mem_cons_of_mem r hg)
      simp only [List.map_cons, List.sum_cons, Nat.cast_add]
      rw [ihh, cells_card]
      have hcast : ((r.width.toNat * r.height.toNat : Nat) : Int) = r.width * r.height := by
        push_cast
        rw [Int.toNat_of_nonneg hr.1, Int.toNat_of_nonneg hr.2]
      omega

/-- Total area of pairwise-separated rectangles with nonnegative sides inside
an `s × s` page is at most `s * s`. -/
theorem sum_area_le (s : Int) (hs : 0 ≤ s) (L : List Rect)
    (hpos : ∀ r ∈ L, 0 ≤ r.width ∧ 0 ≤ r.height)
    (hin : ∀ r ∈ L, inPage s r)
    (hdisj : L.Pairwise separated) :
    (L.map fun r => r.width * r.height).sum ≤ s * s := by
  have hcells : (L.map fun r => (cells r).card).sum ≤
      (Finset.Ico (0 : Int) s ×ˢ Finset.Ico (0 : Int) s).card := by
    refine sum_cells_card_le L _ (fun r hr => cells_subset_page (hin r hr)) ?_
    exact hdisj.imp cells_disjoint
  rw [Finset.card_product, Int.card_Ico] at hcells
  rw [sum_area_eq_sum_cells L hpos]
  have hcast : ((s - 0).toNat * (s - 0).toNat : Int) = s * s := by
    rw [Int.toNat_of_nonneg (by omega : (0 : Int) ≤ s - 0)]
    ring
  omega

/-! ## Full characterisation of the Best Short Side Fit selection -/

/-- Characterisation of the `findBestNode` loop: a `some` result either is the
untouched accumulator (then no listed qualifier beats it), or comes from the
first qualifying rectangle attaining the minimum score among qualifiers. -/
theorem findBestNodeAux_char (w h : Int) (l : List Rect) :
    ∀ (b : Option Int) (r0 : Rect) (m : Int) (r2 : Rect),
      findBestNodeAux w h b r0 l = (some m, r2) →
      (b = some m ∧ r2 = r0 ∧ ∀ g ∈ l, qualifies w h g → m ≤ bssf w h g) ∨
      (∃ pre f post, l = pre ++ f :: post ∧ qualifies w h f ∧ bssf w h f = m ∧
        beats m b ∧ r2 = ⟨f.x, f.y, w, h⟩ ∧
        (∀ g ∈ l, qualifies w h g → m ≤ bssf w h g) ∧
        (∀ g ∈ pre, qualifies w h g → m < bssf w h g)) := by
  induction l with
  | nil =>
      intro b r0 m r2 hres
      rw [findBestNodeAux] at hres
      injection hres with h1 h2
      left
      exact ⟨h1, h2.symm, by simp⟩
  | cons f rest ih =>
      intro b r0 m r2 hres
      rw [findBestNodeAux] at hres
      by_cases hq : w ≤ f.width ∧ h ≤ f.height
      · rw [if_pos hq] at hres
        by_cases hb : beats (min |f.width - w| |f.height - h|) b
        · rw [if_pos hb] at hres
          rcases ih (some (min |f.width - w| |f.height - h|)) ⟨f.x, f.y, w, h⟩ m r2 hres with
            ⟨hsome, hr, hall⟩ | ⟨pre, f2, post, hsplit, hq2, hm, hbeats2, hr2, hall, hpre⟩
          · injection hsome with hm
            right
            refine ⟨[], f, rest, rfl, hq, hm, ?_, hr, ?_, by simp⟩
            · rw [← hm]; exact hb
            · intro g hg hgq
              rcases List.mem_cons.mp hg with hg | hg
              · subst hg
                rw [← hm]
                exact le_refl _
              · exact hall g hg hgq
          · right
            have hmf : m < min |f.width - w| |f.height - h| := hbeats2
            refine ⟨f :: pre, f2, post, by rw [hsplit, List.cons_append], hq2, hm, ?_, hr2, ?_, ?_⟩
            · cases b with
              | none => trivial
              | some bb =>
                  have : min |f.width - w| |f.height - h| < bb := hb
                  exact lt_trans hmf this
            · intro g hg hgq
              rcases List.mem_cons.mp hg with hg | hg
              · subst hg
                exact le_of_lt hmf
              · exact hall g hg hgq
            · intro g hg hgq
              rcases List.mem_cons.mp hg with hg | hg
              · subst hg
                exact hmf
              · exact hpre g hg hgq
        · rw [if_neg hb] at hres
          have hble : ∃ bb, b = some bb ∧ bb ≤ min |f.width - w| |f.height - h| := by
            cases b with
            | none => exact absurd trivial hb
            | some bb =>
                refine ⟨bb, rfl, ?_⟩
                have : ¬(min |f.width - w| |f.height - h| < bb) := hb
                omega
          obtain ⟨bb, rfl, hbb⟩ := hble
          rcases ih (some bb) r0 m r2 hres with
            ⟨hsome, hr, hall⟩ | ⟨pre, f2, post, hsplit, hq2, hm, hbeats2, hr2, hall, hpre⟩
          · injection hsome with hm
            left
            refine ⟨by rw [hm], hr, ?_⟩
            intro g hg hgq
            rcases List.mem_cons.mp hg with hg | hg
            · subst hg
              exact hm ▸ hbb
            · exact hall g hg hgq
          · right
            have hmbb : m < bb := hbeats2
            refine ⟨f :: pre, f2, post, by rw [hsplit, List.cons_append], hq2, hm, hbeats2, hr2, ?_, ?_⟩
            · intro g hg hgq
              rcases List.mem_cons.mp hg with hg | hg
              · subst hg
                exact le_of_lt (lt_of_lt_of_le hmbb hbb)
              · exact hall g hg hgq
            · intro g hg hgq
              rcases List.mem_cons.mp hg with hg | hg
              · subst hg
                exact lt_of_lt_of_le hmbb hbb
              · exact hpre g hg hgq
      · rw [if_neg hq] at hres
        rcases ih b r0 m r2 hres with
          ⟨hsome, hr, hall⟩ | ⟨pre, f2, post, hsplit, hq2, hm, hbeats2, hr2, hall, hpre⟩
        · left
          refine ⟨hsome, hr, ?_⟩
          intro g hg hgq
          rcases List.mem_cons.mp hg with hg | hg
          · subst hg; exact absurd hgq hq
          · exact hall g hg hgq
        · right
          refine ⟨f :: pre, f2, post, by rw [hsplit, List.cons_append], hq2, hm, hbeats2, hr2, ?_, ?_⟩
          · intro g hg hgq
            rcases List.mem_cons.mp hg with hg | hg
            · subst hg; exact absurd hgq hq
            · exact hall g hg hgq
          · intro g hg hgq
            rcases List.mem_cons.mp hg with hg | hg
            · subst hg; exact absurd hgq hq
            · exact hpre g hg hgq

/-! ## Bridge: properties of the placements of every returned page -/

theorem prRect_isContained_footprint (padding : Int) (hp : 0 ≤ padding)
    (pr : PackedRect) : isContained (prRect pr) (footprint padding pr) := by
  simp only [isContained, prRect, footprint]
  omega

/-- Shared workhorse: on every page returned by `packAtlases`, the recorded
placement rectangles are pairwise separated, lie inside the page, and carry
the dimensions and identity of input tasks. -/
theorem pack_page_placed_props (tasks : List OptimizationTask) (s p : Int)
    (hp : 0 ≤ p) :
    ∀ pg ∈ packAtlases tasks s p,
      (pg.items.map prRect).Pairwise separated ∧
      (∀ pr ∈ pg.items, inPage s (prRect pr)) ∧
      (∀ pr ∈ pg.items, pr.w = pr.task.targetWidth ∧ pr.h = pr.task.targetHeight ∧
        pr.task ∈ tasks ∧ pr.task.targetWidth ≤ s ∧ pr.task.targetHeight ≤ s) := by
  intro pg hpg
  obtain ⟨idx2, rem2, hsub, hpg2⟩ := packLoop_pages s p 0 (sortDesc tasks) pg hpg
  subst hpg2
  rw [mkPage_items]
  obtain ⟨hpair, hin⟩ := runPass_placed_good s p rem2
  refine ⟨?_, ?_, ?_⟩
  · rw [List.pairwise_map]
    rw [List.pairwise_map] at hpair
    refine hpair.imp ?_
    intro a b hab
    exact separated_of_isContained_both (prRect_isContained_footprint p hp a)
      (prRect_isContained_footprint p hp b) hab
  · intro pr hpr
    exact inPage_of_isContained (prRect_isContained_footprint p hp pr) (hin pr hpr)
  · intro pr hpr
    obtain ⟨h1, h2, h3, h4, h5⟩ := runPass_placed_elim s p rem2 [⟨0, 0, s, s⟩] pr hpr
    refine ⟨h1, h2, ?_, h4, h5⟩
    exact (sortDesc_perm tasks).mem_iff.mp (hsub.mem h3)

/-! ## Claim theorems -/

/-- C1.  For every call `pack(items, page_size, padding)` with
`page_size > 0` and `padding >= 0`, in every returned page every pair of
distinct placements is non-overlapping (their rectangles are separated, i.e.
the negation of the code's intersection test holds), and every placement
satisfies `0 ≤ x`, `0 ≤ y`, `x + width ≤ page_size`, `y + height ≤ page_size`. -/
theorem pack_no_overlap_and_contained (tasks : List OptimizationTask)
    (page_size padding : Int) (_hs : 0 < page_size) (hp : 0 ≤ padding) :
    ∀ pg ∈ packAtlases tasks page_size padding,
      (pg.items.map prRect).Pairwise separated ∧
      ∀ pr ∈ pg.items, 0 ≤ pr.x ∧ 0 ≤ pr.y ∧
        pr.x + pr.w ≤ page_size ∧ pr.y + pr.h ≤ page_size := by
  intro pg hpg
  obtain ⟨hpair, hin, -⟩ := pack_page_placed_props tasks page_size padding hp pg hpg
  refine ⟨hpair, fun pr hpr => ?_⟩
  have := hin pr hpr
  simp only [inPage, prRect] at this
  exact this

/-- C1 witness: Scenario A (two 100×100 items on a 200 page, no padding). -/
theorem pack_no_overlap_and_contained_witness :
    (0 : Int) < 200 ∧ (0 : Int) ≤ 0 ∧
    ∀ pg ∈ packAtlases [⟨0, 100, 100⟩, ⟨1, 100, 100⟩] 200 0,
      (pg.items.map prRect).Pairwise separated ∧
      ∀ pr ∈ pg.items, 0 ≤ pr.x ∧ 0 ≤ pr.y ∧
        pr.x + pr.w ≤ 200 ∧ pr.y + pr.h ≤ 200 :=
  ⟨by decide, by decide,
   pack_no_overlap_and_contained [⟨0, 100, 100⟩, ⟨1, 100, 100⟩] 200 0
     (by decide) (by decide)⟩

/-- C3.  Every placement on every page records a task that fits the page
(so an item with `width > page_size` or `height > page_size` appears in zero
placements and, efficiency being a function of the placements only,
contributes to no page's efficiency); in particular the single oversized item
`(2049, 100, "big")` at page size 2048 yields one empty page that never
references it. -/
theorem pack_excludes_oversized (tasks : List OptimizationTask)
    (page_size padding : Int) :
    (∀ pg ∈ packAtlases tasks page_size padding, ∀ pr ∈ pg.items,
      pr.task.targetWidth ≤ page_size ∧ pr.task.targetHeight ≤ page_size) ∧
    (∀ t : OptimizationTask, (page_size < t.targetWidth ∨ page_size < t.targetHeight) →
      ∀ pg ∈ packAtlases tasks page_size padding, ∀ pr ∈ pg.items, pr.task ≠ t) ∧
    packAtlases [⟨0, 2049, 100⟩] 2048 2 = [⟨0, 2048, 2048, [], 0⟩] := by
  have hfit : ∀ pg ∈ packAtlases tasks page_size padding, ∀ pr ∈ pg.items,
      pr.task.targetWidth ≤ page_size ∧ pr.task.targetHeight ≤ page_size := by
    intro pg hpg pr hpr
    obtain ⟨idx2, rem2, -, hpg2⟩ := packLoop_pages page_size padding 0 (sortDesc tasks) pg hpg
    subst hpg2
    rw [mkPage_items] at hpr
    obtain ⟨-, -, -, h4, h5⟩ :=
      runPass_placed_elim page_size padding rem2 [⟨0, 0, page_size, page_size⟩] pr hpr
    exact ⟨h4, h5⟩
  refine ⟨hfit, ?_, ?_⟩
  · intro t ht pg hpg pr hpr heq
    have := hfit pg hpg pr hpr
    rw [heq] at this
    omega
  · simp [packAtlases, sortDesc, insertDesc, packLoop, runPass, insert, findBestNode,
      findBestNodeAux, beats, placeRect, splitFreeNode, separated, isContained,
      pruneFreeList, pruneFrom, pruneRow, mkPage]

/-- C3 witness: the oversized item of Scenario B is referenced by no
placement. -/
theorem pack_excludes_oversized_witness :
    ((2048 : Int) < 2049 ∨ (2048 : Int) < 100) ∧
    ∀ pg ∈ packAtlases [⟨0, 2049, 100⟩] 2048 2, ∀ pr ∈ pg.items,
      pr.task ≠ (⟨0, 2049, 100⟩ : OptimizationTask) :=
  ⟨Or.inl (by decide),
   (pack_excludes_oversized [⟨0, 2049, 100⟩] 2048 2).2.1 ⟨0, 2049, 100⟩
     (Or.inl (by decide))⟩

/-- C9.  For every request, the worker handler posts exactly one response,
namely the success result carrying the pages of the same pure `packAtlases`;
the `catch` branch (failure result) exists for unexpected exceptions, which
the pure model never raises, so no exception escapes the handler. -/
theorem worker_single_response (m : PackerMessage) :
    (onmessage m).length = 1 ∧
    onmessage m = [⟨true, some (packAtlases m.tasks m.maxSize m.padding), none⟩] :=
  ⟨rfl, rfl⟩

/-- C10.  Empty input gives an empty page list; non-empty input always gives
at least one page; if every item is oversized the result is exactly one page
with no placements and efficiency 0. -/
theorem pack_page_list_shape (tasks : List OptimizationTask)
    (page_size padding : Int) :
    packAtlases [] page_size padding = [] ∧
    (tasks ≠ [] → packAtlases tasks page_size padding ≠ []) ∧
    (tasks ≠ [] → 0 < page_size →
      (∀ t ∈ tasks, page_size < t.targetWidth ∨ page_size < t.targetHeight) →
      packAtlases tasks page_size padding = [⟨0, page_size, page_size, [], 0⟩]) := by
  refine ⟨?_, ?_, ?_⟩
  · rw [packAtlases]
    rw [show sortDesc [] = [] from rfl]
    rw [packLoop]
    simp
  · intro hne
    rw [packAtlases, packLoop]
    have hne2 : ¬(sortDesc tasks).isEmpty := by
      rw [List.isEmpty_iff]
      intro hnil
      have hlen := (sortDesc_perm tasks).length_eq
      rw [hnil, List.length_nil] at hlen
      exact hne (List.length_eq_zero.mp hlen.symm)
    rw [dif_neg hne2]
    split <;> simp
  · intro hne hs hover
    rw [packAtlases, packLoop]
    have hne2 : ¬(sortDesc tasks).isEmpty := by
      rw [List.isEmpty_iff]
      intro hnil
      have hlen := (sortDesc_perm tasks).length_eq
      rw [hnil, List.length_nil] at hlen
      exact hne (List.length_eq_zero.mp hlen.symm)
    rw [dif_neg hne2]
    have hover2 : ∀ t ∈ sortDesc tasks, page_size < t.targetWidth ∨
        page_size < t.targetHeight :=
      fun t ht => hover t ((sortDesc_perm tasks).mem_iff.mp ht)
    have hrp := runPass_all_oversized page_size padding (sortDesc tasks)
      [⟨0, 0, page_size, page_size⟩] hover2
    rw [List.isEmpty_iff] at hne2
    have hlen : (sortDesc tasks).length ≠ 0 := fun h0 =>
      hne2 (List.length_eq_zero.mp h0)
    rw [dif_neg (by rw [hrp]; simp; omega)]
    rw [hrp]
    rw [packLoop]
    simp [mkPage]

/-- C10 witness: a single oversized item on a positive page. -/
theorem pack_page_list_shape_witness :
    ([(⟨0, 5, 1⟩ : OptimizationTask)] ≠ []) ∧ (0 : Int) < 2 ∧
    (∀ t ∈ [(⟨0, 5, 1⟩ : OptimizationTask)], (2 : Int) < t.targetWidth ∨
      (2 : Int) < t.targetHeight) ∧
    packAtlases [⟨0, 5, 1⟩] 2 0 = [⟨0, 2, 2, [], 0⟩] :=
  ⟨by decide, by decide, by decide,
   (pack_page_list_shape [⟨0, 5, 1⟩] 2 0).2.2 (by decide) (by decide) (by decide)⟩

/-- A page built from no placements: efficiency is `0 / totalArea * 100 = 0`. -/
theorem mkPage_nil (idx : Nat) (s : Int) : mkPage idx s [] = ⟨idx, s, s, [], 0⟩ := by
  simp [mkPage]

/-- When every remaining item is oversized, the loop runs exactly one pass
(placing nothing, dropping everything to the oversize skip) and returns a
single empty page. -/
theorem packLoop_all_oversized (s p : Int) (idx : Nat) (rem : List OptimizationTask)
    (hne : rem ≠ [])
    (hover : ∀ t ∈ rem, s < t.targetWidth ∨ s < t.targetHeight) :
    packLoop s p idx rem = [⟨idx, s, s, [], 0⟩] := by
  rw [packLoop]
  have hne2 : ¬rem.isEmpty = true := fun hemp => hne (List.isEmpty_iff.mp hemp)
  rw [dif_neg hne2]
  have hrp := runPass_all_oversized s p rem [⟨0, 0, s, s⟩] hover
  have hlen : rem.length ≠ 0 := fun h0 => hne (List.length_eq_zero.mp h0)
  rw [dif_neg (by rw [hrp]; simp; omega)]
  rw [hrp, packLoop]
  simp [mkPage]

/-- C5.  The loop of `pack` is total, and when a full pass places zero items
while items remain (and none is dropped to the oversize skip — the stall
condition of the code), the loop stops right after pushing that pass's empty
page: the pages built so far are returned as a normal result, and the items
that could not be placed occur in no placement of the result. -/
theorem pack_stall_guard (page_size padding : Int) (idx : Nat)
    (remaining : List OptimizationTask) (hne : remaining ≠ [])
    (hplaced : (runPass page_size padding remaining
      [⟨0, 0, page_size, page_size⟩]).placed = [])
    (hlen : (runPass page_size padding remaining
      [⟨0, 0, page_size, page_size⟩]).didntFit.length = remaining.length) :
    packLoop page_size padding idx remaining = [⟨idx, page_size, page_size, [], 0⟩] ∧
    ∀ t ∈ remaining, ∀ pg ∈ packLoop page_size padding idx remaining,
      ∀ pr ∈ pg.items, pr.task ≠ t := by
  have heq : packLoop page_size padding idx remaining =
      [⟨idx, page_size, page_size, [], 0⟩] := by
    rw [packLoop]
    have hne2 : ¬remaining.isEmpty = true := fun hemp => hne (List.isEmpty_iff.mp hemp)
    rw [dif_neg hne2]
    rw [dif_pos (by rw [hplaced]; exact ⟨rfl, hlen⟩)]
    rw [hplaced, mkPage_nil]
  refine ⟨heq, ?_⟩
  intro t ht pg hpg pr hpr
  rw [heq, List.mem_singleton] at hpg
  subst hpg
  simp at hpr

/-- C5 witness: a `(10, 10)` item with padding 2 on a size-10 page stalls the
very first pass. -/
theorem pack_stall_guard_witness :
    ([(⟨0, 10, 10⟩ : OptimizationTask)] ≠ []) ∧
    (runPass 10 2 [⟨0, 10, 10⟩] [⟨0, 0, 10, 10⟩]).placed = [] ∧
    (runPass 10 2 [⟨0, 10, 10⟩] [⟨0, 0, 10, 10⟩]).didntFit.length =
      [(⟨0, 10, 10⟩ : OptimizationTask)].length ∧
    packLoop 10 2 0 [⟨0, 10, 10⟩] = [⟨0, 10, 10, [], 0⟩] :=
  ⟨by decide, by rfl, by rfl,
   (pack_stall_guard 10 2 0 [⟨0, 10, 10⟩] (by decide) (by rfl) (by rfl)).1⟩

/-- C2 counterexample: the single item `(10, 10)` with page size 10 and
padding 2 satisfies the claim's hypotheses (`width ≤ page_size`,
`height ≤ page_size`, positive page size, nonnegative padding), yet the
stall-guard fires and the item appears in zero placements: conservation as
claimed fails. -/
theorem pack_conservation_counterexample :
    (∀ t ∈ [(⟨0, 10, 10⟩ : OptimizationTask)],
      t.targetWidth ≤ 10 ∧ t.targetHeight ≤ 10) ∧
    (0 : Int) < 10 ∧ (0 : Int) ≤ 2 ∧
    (packAtlases [⟨0, 10, 10⟩] 10 2).flatMap (fun pg => pg.items) = [] := by
  refine ⟨by decide, by decide, by decide, ?_⟩
  simp [packAtlases, sortDesc, insertDesc, packLoop, runPass, insert, findBestNode,
    findBestNodeAux, beats, mkPage]

/-- C2, amended.  If every item fits together with its padding
(`width + padding ≤ page_size` and `height + padding ≤ page_size`), then
every input item appears in exactly one placement across all returned pages
(the multiset of placed tasks is a permutation of the input), the stall-guard
never triggers (every page is nonempty) and no item is dropped. -/
theorem pack_conserves_when_padded_fit (tasks : List OptimizationTask)
    (page_size padding : Int) (_hs : 0 < page_size) (hp : 0 ≤ padding)
    (hfit : ∀ t ∈ tasks, t.targetWidth + padding ≤ page_size ∧
      t.targetHeight + padding ≤ page_size) :
    ((packAtlases tasks page_size padding).flatMap
      (fun pg => pg.items.map PackedRect.task)).Perm tasks ∧
    ∀ pg ∈ packAtlases tasks page_size padding, pg.items ≠ [] := by
  have hfit2 : ∀ t ∈ sortDesc tasks, t.targetWidth + padding ≤ page_size ∧
      t.targetHeight + padding ≤ page_size :=
    fun t ht => hfit t ((sortDesc_perm tasks).mem_iff.mp ht)
  obtain ⟨hperm, hne⟩ :=
    packLoop_conserves page_size padding hp 0 (sortDesc tasks) hfit2
  exact ⟨hperm.trans (sortDesc_perm tasks), hne⟩

/-- C2 witness: Scenario A conserves both items. -/
theorem pack_conserves_when_padded_fit_witness :
    (0 : Int) < 200 ∧ (0 : Int) ≤ 0 ∧
    (∀ t ∈ [(⟨0, 100, 100⟩ : OptimizationTask), ⟨1, 100, 100⟩],
      t.targetWidth + 0 ≤ 200 ∧ t.targetHeight + 0 ≤ 200) ∧
    ((packAtlases [⟨0, 100, 100⟩, ⟨1, 100, 100⟩] 200 0).flatMap
      (fun pg => pg.items.map PackedRect.task)).Perm [⟨0, 100, 100⟩, ⟨1, 100, 100⟩] :=
  ⟨by decide, by decide, by decide,
   (pack_conserves_when_padded_fit [⟨0, 100, 100⟩, ⟨1, 100, 100⟩] 200 0
     (by decide) (by decide) (by decide)).1⟩

/-- C4 counterexample: with an invalid page size (0) and a negative padding,
`pack` does not fail fast — it runs to completion and produces a page, so a
result is produced where the claim requires none. -/
theorem pack_validation_counterexample :
    (packAtlases [⟨0, 1, 1⟩] 0 (-1)).length = 1 := by
  rw [packAtlases]
  rw [show sortDesc [⟨0, 1, 1⟩] = [⟨0, 1, 1⟩] from rfl]
  rw [packLoop_all_oversized 0 (-1) 0 [⟨0, 1, 1⟩] (by decide)
    (by intro t ht; rw [List.mem_singleton] at ht; subst ht; left; decide)]
  rfl

/-- C4, amended.  `pack` performs no input validation: with a non-positive
page size (and any padding, including negative) it does not raise an error
and proceeds; every positive-width item is skipped by the oversize check, so
a non-empty input yields exactly one page with no placements. -/
theorem pack_no_validation (tasks : List OptimizationTask)
    (page_size padding : Int) (hne : tasks ≠ [])
    (hpos : ∀ t ∈ tasks, 0 < t.targetWidth) (hs : page_size ≤ 0) :
    (packAtlases tasks page_size padding).length = 1 ∧
    ∀ pg ∈ packAtlases tasks page_size padding, pg.items = [] := by
  have hne2 : sortDesc tasks ≠ [] := by
    intro hnil
    have hlen := (sortDesc_perm tasks).length_eq
    rw [hnil, List.length_nil] at hlen
    exact hne (List.length_eq_zero.mp hlen.symm)
  have hover : ∀ t ∈ sortDesc tasks, page_size < t.targetWidth ∨
      page_size < t.targetHeight := by
    intro t ht
    left
    exact lt_of_le_of_lt hs (hpos t ((sortDesc_perm tasks).mem_iff.mp ht))
  rw [packAtlases, packLoop_all_oversized page_size padding 0 (sortDesc tasks) hne2 hover]
  exact ⟨rfl, by simp⟩

/-- C4 witness: `pack([{1×1}], 0, -1)` returns one empty page, no error. -/
theorem pack_no_validation_witness :
    ([(⟨0, 1, 1⟩ : OptimizationTask)] ≠ []) ∧
    (∀ t ∈ [(⟨0, 1, 1⟩ : OptimizationTask)], (0 : Int) < t.targetWidth) ∧
    ((0 : Int) ≤ 0) ∧
    ((packAtlases [⟨0, 1, 1⟩] 0 (-1)).length = 1 ∧
      ∀ pg ∈ packAtlases [⟨0, 1, 1⟩] 0 (-1), pg.items = []) :=
  ⟨by decide, by decide, by decide,
   pack_no_validation [⟨0, 1, 1⟩] 0 (-1) (by decide) (by decide) (by decide)⟩

theorem list_sum_nonneg (L : List Int) (h : ∀ x ∈ L, 0 ≤ x) : 0 ≤ L.sum := by
  induction L with
  | nil => simp
  | cons x rest ih =>
      rw [List.sum_cons]
      have hx := h x (List.mem_cons_self x rest)
      have hr := ih fun y hy => h y (List.mem_cons_of_mem x hy)
      omega

theorem list_sum_one_le (L : List Int) (hne : L ≠ []) (h : ∀ x ∈ L, 1 ≤ x) :
    1 ≤ L.sum := by
  cases L with
  | nil => exact absurd rfl hne
  | cons x rest =>
      rw [List.sum_cons]
      have hx := h x (List.mem_cons_self x rest)
      have hr := list_sum_nonneg rest fun y hy => by
        have := h y (List.mem_cons_of_mem x hy); omega
      omega

theorem mkPage_efficiency (idx : Nat) (s : Int) (L : List PackedRect) :
    (mkPage idx s L).efficiency =
      ((L.foldl (fun acc p => acc + p.w * p.h) 0 : Int) : Rat) /
        (((s * s : Int) : Rat)) * 100 := rfl

/-- C6.  For every returned page, `efficiency` equals
`100 × Σ(width × height) / page_size²`; consequently it lies in `[0, 100]`
and is `0` exactly when the page has no placements. -/
theorem pack_efficiency (tasks : List OptimizationTask) (page_size padding : Int)
    (hs : 0 < page_size) (hp : 0 ≤ padding)
    (hpos : ∀ t ∈ tasks, 0 < t.targetWidth ∧ 0 < t.targetHeight) :
    ∀ pg ∈ packAtlases tasks page_size padding,
      pg.efficiency = 100 * (((pg.items.map fun pr => pr.w * pr.h).sum : Int) : Rat) /
        ((page_size : Rat) * (page_size : Rat)) ∧
      0 ≤ pg.efficiency ∧ pg.efficiency ≤ 100 ∧
      (pg.efficiency = 0 ↔ pg.items = []) := by
  intro pg hpg
  obtain ⟨hpair, hin, hdims⟩ :=
    pack_page_placed_props tasks page_size padding hp pg hpg
  obtain ⟨idx2, rem2, -, hpg2⟩ :=
    packLoop_pages page_size padding 0 (sortDesc tasks) pg hpg
  have hitems : pg.items = (runPass page_size padding rem2
      [⟨0, 0, page_size, page_size⟩]).placed := by
    rw [hpg2, mkPage_items]
  -- positivity of every placement's dimensions
  have hposdim : ∀ pr ∈ pg.items, 0 < pr.w ∧ 0 < pr.h := by
    intro pr hpr
    obtain ⟨h1, h2, h3, -⟩ := hdims pr hpr
    have := hpos pr.task h3
    omega
  -- the integer used area
  set A : Int := (pg.items.map fun pr => pr.w * pr.h).sum with hA
  have hA_nonneg : 0 ≤ A := by
    refine list_sum_nonneg _ ?_
    intro x hx
    rw [List.mem_map] at hx
    obtain ⟨pr, hpr, rfl⟩ := hx
    have := hposdim pr hpr
    exact mul_nonneg (le_of_lt this.1) (le_of_lt this.2)
  have hA_le : A ≤ page_size * page_size := by
    have hmap : (pg.items.map fun pr => pr.w * pr.h) =
        ((pg.items.map prRect).map fun r => r.width * r.height) := by
      rw [List.map_map]
      rfl
    rw [hA, hmap]
    refine sum_area_le page_size (le_of_lt hs) (pg.items.map prRect) ?_ ?_ hpair
    · intro r hr
      rw [List.mem_map] at hr
      obtain ⟨pr, hpr, rfl⟩ := hr
      have := hposdim pr hpr
      simp only [prRect]
      omega
    · intro r hr
      rw [List.mem_map] at hr
      obtain ⟨pr, hpr, rfl⟩ := hr
      exact hin pr hpr
  have heff : pg.efficiency = (A : Rat) / ((page_size : Rat) * (page_size : Rat)) * 100 := by
    rw [hpg2, mkPage_efficiency, ← hitems]
    rw [foldl_area_eq_sum, ← hA]
    push_cast
    ring_nf
  have hden_pos : (0 : Rat) < (page_size : Rat) * (page_size : Rat) := by
    have : (0 : Rat) < (page_size : Rat) := by exact_mod_cast hs
    positivity
  refine ⟨?_, ?_, ?_, ?_⟩
  · rw [heff]
    ring
  · rw [heff]
    have hAq : (0 : Rat) ≤ (A : Rat) := by exact_mod_cast hA_nonneg
    positivity
  · rw [heff]
    have hAq : (A : Rat) ≤ (page_size : Rat) * (page_size : Rat) := by
      exact_mod_cast hA_le
    rw [div_mul_eq_mul_div, mul_comm]
    rw [div_le_iff₀ hden_pos]
    nlinarith
  · constructor
    · intro h0
      by_contra hne
      have hA1 : 1 ≤ A := by
        refine list_sum_one_le _ ?_ ?_
        · intro hmapnil
          exact hne (List.map_eq_nil_iff.mp hmapnil)
        · intro x hx
          rw [List.mem_map] at hx
          obtain ⟨pr, hpr, rfl⟩ := hx
          have := hposdim pr hpr
          nlinarith
      rw [heff] at h0
      have hAq : (1 : Rat) ≤ (A : Rat) := by exact_mod_cast hA1
      have hgt : (A : Rat) / ((page_size : Rat) * (page_size : Rat)) * 100 > 0 := by
        positivity
      rw [h0] at hgt
      exact lt_irrefl 0 hgt

    · intro hnil
      rw [heff, hA, hnil]
      simp

/-- C6 witness: Scenario A (two 100×100 items, page 200, padding 0) — each
page satisfies the efficiency formula and bounds. -/
theorem pack_efficiency_witness :
    (0 : Int) < 200 ∧ (0 : Int) ≤ 0 ∧
    (∀ t ∈ [(⟨0, 100, 100⟩ : OptimizationTask), ⟨1, 100, 100⟩],
      0 < t.targetWidth ∧ 0 < t.targetHeight) ∧
    ∀ pg ∈ packAtlases [⟨0, 100, 100⟩, ⟨1, 100, 100⟩] 200 0,
      pg.efficiency = 100 * (((pg.items.map fun pr => pr.w * pr.h).sum : Int) : Rat) /
        (((200 : Int) : Rat) * ((200 : Int) : Rat)) ∧
      0 ≤ pg.efficiency ∧ pg.efficiency ≤ 100 ∧
      (pg.efficiency = 0 ↔ pg.items = []) :=
  ⟨by decide, by decide, by decide,
   pack_efficiency [⟨0, 100, 100⟩, ⟨1, 100, 100⟩] 200 0
     (by decide) (by decide) (by decide)⟩

/-- C7.  A placement attempt reserves the padded footprint
`(w + padding, h + padding)`: `insert` fails exactly when no free rectangle
has both sides at least that footprint; on success the chosen rectangle is
the first (in scan order) qualifying free rectangle attaining the minimal
Best Short Side Fit score, and the recorded placement carries the item's
original `(w, h)` at that rectangle's origin. -/
theorem insert_best_short_side_fit (padding : Int) (free : List Rect)
    (task : OptimizationTask) :
    (insert padding free task = none ↔
      ∀ f ∈ free,
        ¬qualifies (task.targetWidth + padding) (task.targetHeight + padding) f) ∧
    ∀ pr free2, insert padding free task = some (pr, free2) →
      ∃ pre f post, free = pre ++ f :: post ∧
        qualifies (task.targetWidth + padding) (task.targetHeight + padding) f ∧
        (∀ g ∈ free,
          qualifies (task.targetWidth + padding) (task.targetHeight + padding) g →
          bssf (task.targetWidth + padding) (task.targetHeight + padding) f ≤
            bssf (task.targetWidth + padding) (task.targetHeight + padding) g) ∧
        (∀ g ∈ pre,
          qualifies (task.targetWidth + padding) (task.targetHeight + padding) g →
          bssf (task.targetWidth + padding) (task.targetHeight + padding) f <
            bssf (task.targetWidth + padding) (task.targetHeight + padding) g) ∧
        pr = ⟨f.x, f.y, task.targetWidth, task.targetHeight, task⟩ := by
  refine ⟨insert_none_iff padding free task, ?_⟩
  intro pr free2 hins
  rw [insert_eq_match] at hins
  cases hfb : (findBestNode (task.targetWidth + padding)
      (task.targetHeight + padding) free).1 with
  | none => rw [hfb] at hins; exact Option.noConfusion hins
  | some s0 =>
      rw [hfb] at hins
      simp only [Option.some.injEq, Prod.mk.injEq] at hins
      obtain ⟨hpr, -⟩ := hins
      have hfb2 : findBestNodeAux (task.targetWidth + padding)
          (task.targetHeight + padding) none ⟨0, 0, 0, 0⟩ free =
          (some s0, (findBestNode (task.targetWidth + padding)
            (task.targetHeight + padding) free).2) := by
        rw [show findBestNodeAux (task.targetWidth + padding)
            (task.targetHeight + padding) none ⟨0, 0, 0, 0⟩ free =
            findBestNode (task.targetWidth + padding)
              (task.targetHeight + padding) free from rfl]
        rw [← hfb]
      rcases findBestNodeAux_char (task.targetWidth + padding)
          (task.targetHeight + padding) free none ⟨0, 0, 0, 0⟩ s0 _ hfb2 with
        ⟨hcontra, -, -⟩ | ⟨pre, f, post, hsplit, hq, hm, -, hrect, hall, hpre⟩
      · exact Option.noConfusion hcontra
      · refine ⟨pre, f, post, hsplit, hq, ?_, ?_, ?_⟩
        · intro g hg hgq
          rw [hm]
          exact hall g hg hgq
        · intro g hg hgq
          rw [hm]
          exact hpre g hg hgq
        · rw [← hpr, hrect]

/-- C7 witness: item 4×4 with padding 0 against two free rectangles; the
5×5 rectangle (score 1) beats the 10×10 rectangle (score 6). -/
theorem insert_best_short_side_fit_witness :
    (insert 0 [⟨0, 0, 5, 5⟩, ⟨0, 5, 10, 10⟩] ⟨0, 4, 4⟩ =
      some (⟨0, 0, 4, 4, ⟨0, 4, 4⟩⟩,
        [⟨0, 5, 10, 10⟩, ⟨0, 4, 5, 1⟩, ⟨4, 0, 1, 5⟩])) ∧
    ∃ pre f post, [(⟨0, 0, 5, 5⟩ : Rect), ⟨0, 5, 10, 10⟩] = pre ++ f :: post ∧
      qualifies (4 + 0) (4 + 0) f ∧
      (∀ g ∈ [(⟨0, 0, 5, 5⟩ : Rect), ⟨0, 5, 10, 10⟩], qualifies (4 + 0) (4 + 0) g →
        bssf (4 + 0) (4 + 0) f ≤ bssf (4 + 0) (4 + 0) g) ∧
      (∀ g ∈ pre, qualifies (4 + 0) (4 + 0) g →
        bssf (4 + 0) (4 + 0) f < bssf (4 + 0) (4 + 0) g) ∧
      (⟨0, 0, 4, 4, ⟨0, 4, 4⟩⟩ : PackedRect) = ⟨f.x, f.y, 4, 4, ⟨0, 4, 4⟩⟩ := by
  have hins : insert 0 [⟨0, 0, 5, 5⟩, ⟨0, 5, 10, 10⟩] ⟨0, 4, 4⟩ =
      some (⟨0, 0, 4, 4, ⟨0, 4, 4⟩⟩,
        [⟨0, 5, 10, 10⟩, ⟨0, 4, 5, 1⟩, ⟨4, 0, 1, 5⟩]) := by
    simp [insert, findBestNode, findBestNodeAux, beats, placeRect, splitFreeNode,
      separated, isContained, pruneFreeList, pruneFrom, pruneRow]
  exact ⟨hins,
    (insert_best_short_side_fit 0 [⟨0, 0, 5, 5⟩, ⟨0, 5, 10, 10⟩] ⟨0, 4, 4⟩).2
      ⟨0, 0, 4, 4, ⟨0, 4, 4⟩⟩ [⟨0, 5, 10, 10⟩, ⟨0, 4, 5, 1⟩, ⟨4, 0, 1, 5⟩] hins⟩

/-- C8.  Items are attempted in descending-height order, stable with respect
to input order on ties (the attempted order is a permutation of the input,
sorted by non-increasing height, with the items of each fixed height kept in
input order); within each returned page the placement order is a subsequence
of that sorted order, and within each pass both the placed list and the
carry-over list preserve the relative order of the pass's input. -/
theorem pack_ordering (tasks : List OptimizationTask) (page_size padding : Int) :
    (sortDesc tasks).Perm tasks ∧
    (sortDesc tasks).Pairwise (fun a b => b.targetHeight ≤ a.targetHeight) ∧
    (∀ hv : Int, (sortDesc tasks).filter (fun u => decide (u.targetHeight = hv)) =
      tasks.filter (fun u => decide (u.targetHeight = hv))) ∧
    (∀ pg ∈ packAtlases tasks page_size padding,
      (pg.items.map PackedRect.task).Sublist (sortDesc tasks)) ∧
    ∀ (rem : List OptimizationTask) (free : List Rect),
      ((runPass page_size padding rem free).placed.map PackedRect.task).Sublist rem ∧
      (runPass page_size padding rem free).didntFit.Sublist rem := by
  refine ⟨sortDesc_perm tasks, sortDesc_sorted tasks,
    fun hv => sortDesc_stable tasks hv, ?_, ?_⟩
  · intro pg hpg
    obtain ⟨idx2, rem2, hsub, hpg2⟩ :=
      packLoop_pages page_size padding 0 (sortDesc tasks) pg hpg
    rw [hpg2, mkPage_items]
    exact (runPass_placedTasks_sublist page_size padding rem2 _).trans hsub
  · intro rem free
    exact ⟨runPass_placedTasks_sublist _ _ rem free,
      runPass_didntFit_sublist _ _ rem free⟩

/-- C8 witness: two items with heights 5 and 7 — the taller is attempted
first, pages follow the sorted order. -/
theorem pack_ordering_witness :
    (sortDesc [(⟨0, 3, 5⟩ : OptimizationTask), ⟨1, 3, 7⟩]).Perm [⟨0, 3, 5⟩, ⟨1, 3, 7⟩] ∧
    (sortDesc [(⟨0, 3, 5⟩ : OptimizationTask), ⟨1, 3, 7⟩]).Pairwise
      (fun a b => b.targetHeight ≤ a.targetHeight) ∧
    (∀ hv : Int, (sortDesc [(⟨0, 3, 5⟩ : OptimizationTask), ⟨1, 3, 7⟩]).filter
        (fun u => decide (u.targetHeight = hv)) =
      [(⟨0, 3, 5⟩ : OptimizationTask), ⟨1, 3, 7⟩].filter
        (fun u => decide (u.targetHeight = hv))) ∧
    (∀ pg ∈ packAtlases [⟨0, 3, 5⟩, ⟨1, 3, 7⟩] 10 0,
      (pg.items.map PackedRect.task).Sublist
        (sortDesc [(⟨0, 3, 5⟩ : OptimizationTask), ⟨1, 3, 7⟩])) ∧
    ∀ (rem : List OptimizationTask) (free : List Rect),
      ((runPass 10 0 rem free).placed.map PackedRect.task).Sublist rem ∧
      (runPass 10 0 rem free).didntFit.Sublist rem :=
  pack_ordering [⟨0, 3, 5⟩, ⟨1, 3, 7⟩] 10 0

end SpineAtlas
